import Mathlib

/-
Shallow embedding of the cache engine in `src/lib/utils.py` (classes
`FastStore`, `TimeBasedCache`, `AgeBasedCache`, and the `HouseKeeper`
sweep installed by `TimeBasedCache.__init__`).

Modelling conventions:
 - the Python dict `_hash` is an association list `List (K × V)`;
 - the recency list `_age` is a `List K` (oldest first);
 - the optional kill callback `_kill_cb` is a `Bool` flag `kill_cb`
   (is a callback configured?) together with a log `killed : List V`
   of the values the callback has been invoked on, in invocation order;
 - time is `Int`; `time.time()` becomes an explicit `now` argument;
 - `KeyError(key)` is `CacheErr.notFound key`, `KeyError("Expired")`
   is `CacheErr.expired`;
 - the regex of `ExpireRegEx` is an opaque boolean predicate on keys.
-/

set_option linter.unusedVariables false

/-- Error raised by the `Get` operations: Python raises `KeyError(key)` on a
missing key and `KeyError("Expired")` on an out-of-date entry. -/
inductive CacheErr (K : Type) where
  | notFound : K → CacheErr K
  | expired : CacheErr K
deriving DecidableEq

/-- Python dict lookup `d.get(k)` on the association-list model of `_hash`. -/
def hlookup {K V : Type} [DecidableEq K] (k : K) : List (K × V) → Option V
  | [] => none
  | (k', v) :: t => if k' = k then some v else hlookup k t

/-- Python dict assignment `d[k] = v`: replace the binding in place when the
key is present, otherwise append a new binding. -/
def hinsert {K V : Type} [DecidableEq K] (k : K) (v : V) : List (K × V) → List (K × V)
  | [] => [(k, v)]
  | (k', v') :: t => if k' = k then (k, v) :: t else (k', v') :: hinsert k v t

/-- The state effect of Python dict removal `d.pop(k, None)`: drop the first
binding of `k`, or do nothing when `k` is absent. -/
def hremove {K V : Type} [DecidableEq K] (k : K) : List (K × V) → List (K × V)
  | [] => []
  | (k', v') :: t => if k' = k then t else (k', v') :: hremove k t

/-- Python `lst.pop(lst.index(k))` with the `ValueError` swallowed: remove the
first occurrence of `k` from the list, or do nothing when `k` is absent. -/
def lerase {K : Type} [DecidableEq K] (k : K) : List K → List K
  | [] => []
  | k' :: t => if k' = k then t else k' :: lerase k t

/-- State of `FastStore`: the recency list `_age`, the entry mapping `_hash`,
the capacity bound `_limit`, and the kill-callback model (`_kill_cb`). -/
structure FastStore (K V : Type) where
  age : List K
  hash : List (K × V)
  limit : Nat
  kill_cb : Bool
  killed : List V
deriving DecidableEq

/-- `FastStore.__init__(max_size, kill_cb)`. -/
def FastStore.init (K V : Type) (max_size : Nat) (cb : Bool) : FastStore K V :=
  ⟨[], [], max_size, cb, []⟩

/-- `FastStore.ExpireObject(key)`: `obj = self._hash.pop(key, None)`; when a
kill callback is configured and the key was present, the callback is invoked
on the popped value.  Note that the key is not removed from `_age`. -/
def FastStore.ExpireObject {K V : Type} [DecidableEq K] (key : K) (s : FastStore K V) :
    Option V × FastStore K V :=
  let obj := hlookup key s.hash
  (obj,
   { s with
     hash := hremove key s.hash,
     killed :=
       match obj with
       | some v => if s.kill_cb then s.killed ++ [v] else s.killed
       | none => s.killed })

/-- The while loop of `FastStore.Expire`, run with explicit fuel: while
`len(self._age) > self._limit`, pop the front of `_age` and `ExpireObject` it.
Each iteration shortens `_age` by exactly one, so fuel `_age.length` always
runs the loop to completion. -/
def FastStore.ExpireFuel {K V : Type} [DecidableEq K] :
    Nat → FastStore K V → FastStore K V
  | 0, s => s
  | n + 1, s =>
    if s.limit < s.age.length then
      match s.age with
      | [] => s
      | x :: rest => FastStore.ExpireFuel n (FastStore.ExpireObject x { s with age := rest }).2
    else s

/-- `FastStore.Expire()`: expire oldest-first while over capacity. -/
def FastStore.Expire {K V : Type} [DecidableEq K] (s : FastStore K V) : FastStore K V :=
  FastStore.ExpireFuel s.age.length s

/-- `FastStore.Put(key, obj)`: drop `key` from `_age` if present, bind it in
`_hash`, append it at the recently-used end of `_age`, enforce capacity with
`Expire`, and return the key. -/
def FastStore.Put {K V : Type} [DecidableEq K] (key : K) (obj : V) (s : FastStore K V) :
    K × FastStore K V :=
  (key, FastStore.Expire { s with age := lerase key s.age ++ [key], hash := hinsert key obj s.hash })

/-- `FastStore.Get(key)`: move `key` to the recently-used end of `_age`
(raising `KeyError(key)` when `key` is not in `_age`), then read `_hash[key]`
(which also raises `KeyError(key)` when the binding is missing). -/
def FastStore.Get {K V : Type} [DecidableEq K] (key : K) (s : FastStore K V) :
    Except (CacheErr K) V × FastStore K V :=
  if key ∈ s.age then
    let s1 : FastStore K V := { s with age := lerase key s.age ++ [key] }
    match hlookup key s1.hash with
    | some v => (Except.ok v, s1)
    | none => (Except.error (CacheErr.notFound key), s1)
  else
    (Except.error (CacheErr.notFound key), s)

/-- `FastStore.__contains__`: membership in `_hash`, no mutation. -/
def FastStore.contains {K V : Type} [DecidableEq K] (key : K) (s : FastStore K V) : Bool :=
  (hlookup key s.hash).isSome

/-- The while loop of `FastStore.Flush`, with fuel as in `ExpireFuel`: while
`_age` is nonempty, pop its front and `ExpireObject` it. -/
def FastStore.FlushFuel {K V : Type} [DecidableEq K] :
    Nat → FastStore K V → FastStore K V
  | 0, s => s
  | n + 1, s =>
    match s.age with
    | [] => s
    | x :: rest => FastStore.FlushFuel n (FastStore.ExpireObject x { s with age := rest }).2

/-- `FastStore.Flush()`: drain `_age` oldest-first, then `self._hash = {}`. -/
def FastStore.Flush {K V : Type} [DecidableEq K] (s : FastStore K V) : FastStore K V :=
  { FastStore.FlushFuel s.age.length s with hash := [] }

/-- `FastStore.ExpireRegEx(regex)`: iterate over a snapshot of `_hash.keys()`
and `ExpireObject` every key matching the pattern. -/
def FastStore.ExpireRegEx {K V : Type} [DecidableEq K] (pmatch : K → Bool)
    (s : FastStore K V) : FastStore K V :=
  (s.hash.map Prod.fst).foldl
    (fun t key => if pmatch key then (FastStore.ExpireObject key t).2 else t) s

/-- `FastStore.__getstate__`: raise when a kill callback is configured,
otherwise flush and return `dict(max_size=self._limit)` (paired here with the
flushed state, since pickling mutates the store in place). -/
def FastStore.getstate {K V : Type} [DecidableEq K] (s : FastStore K V) :
    Except Unit (Nat × FastStore K V) :=
  if s.kill_cb then Except.error () else Except.ok (s.limit, FastStore.Flush s)

/-- `FastStore.__setstate__`: re-run `__init__` on the pickled `max_size`. -/
def FastStore.setstate (K V : Type) (max_size : Nat) : FastStore K V :=
  FastStore.init K V max_size false

/-- State of `TimeBasedCache`: the underlying `FastStore` whose values are
`[last_touch_timestamp, obj]` pairs, plus `max_age`. -/
structure TimeBasedCache (K V : Type) where
  store : FastStore K (Int × V)
  max_age : Int
deriving DecidableEq

/-- `TimeBasedCache.__init__(max_size, max_age, kill_cb)` (state only; the
housekeeper thread is modelled by the explicit `HouseKeeper` sweep below). -/
def TimeBasedCache.init (K V : Type) (max_size : Nat) (max_age : Int) (cb : Bool) :
    TimeBasedCache K V :=
  ⟨FastStore.init K (Int × V) max_size cb, max_age⟩

/-- `TimeBasedCache.Get(key)`: run `FastStore.Get` (recency touch included),
raise `KeyError("Expired")` when `stored[0] + max_age < now`, otherwise update
the timestamp in place (`stored[0] = now`) and return `stored[1]`. -/
def TimeBasedCache.Get {K V : Type} [DecidableEq K] (key : K) (now : Int)
    (tc : TimeBasedCache K V) : Except (CacheErr K) V × TimeBasedCache K V :=
  match FastStore.Get key tc.store with
  | (Except.error e, s') => (Except.error e, { tc with store := s' })
  | (Except.ok (ts, v), s') =>
    if ts + tc.max_age < now then
      (Except.error CacheErr.expired, { tc with store := s' })
    else
      (Except.ok v, { tc with store := { s' with hash := hinsert key (now, v) s'.hash } })

/-- `TimeBasedCache.Put(key, obj)`: wrap the value as `[time.time(), obj]` and
delegate to `FastStore.Put`.  The method body has no `return` statement, so
its Python return value is `None`, modelled as `none : Option K`. -/
def TimeBasedCache.Put {K V : Type} [DecidableEq K] (key : K) (obj : V) (now : Int)
    (tc : TimeBasedCache K V) : Option K × TimeBasedCache K V :=
  (none, { tc with store := (FastStore.Put key (now, obj) tc.store).2 })

/-- The body of the `HouseKeeper` loop of `TimeBasedCache.__init__`: iterate
over the keys of `_age` (which `ExpireObject` never modifies), and for every
key whose binding satisfies `timestamp + max_age < now`, `ExpireObject` it;
a `KeyError` on a key missing from `_hash` is swallowed. -/
def HouseKeeperLoop {K V : Type} [DecidableEq K] (max_age now : Int) :
    List K → FastStore K (Int × V) → FastStore K (Int × V)
  | [], s => s
  | key :: rest, s =>
    match hlookup key s.hash with
    | none => HouseKeeperLoop max_age now rest s
    | some (ts, _) =>
      if ts + max_age < now then
        HouseKeeperLoop max_age now rest (FastStore.ExpireObject key s).2
      else
        HouseKeeperLoop max_age now rest s

/-- One execution of the background `HouseKeeper` sweep at time `now`. -/
def TimeBasedCache.HouseKeeper {K V : Type} [DecidableEq K] (now : Int)
    (tc : TimeBasedCache K V) : TimeBasedCache K V :=
  { tc with store := HouseKeeperLoop tc.max_age now tc.store.age tc.store }

/-- `TimeBasedCache.__getstate__`: raise when a kill callback is configured,
otherwise flush and return `dict(max_size=self._limit, max_age=self.max_age)`. -/
def TimeBasedCache.getstate {K V : Type} [DecidableEq K] (tc : TimeBasedCache K V) :
    Except Unit ((Nat × Int) × TimeBasedCache K V) :=
  if tc.store.kill_cb then Except.error ()
  else Except.ok ((tc.store.limit, tc.max_age), { tc with store := FastStore.Flush tc.store })

/-- `TimeBasedCache.__setstate__`: re-run `__init__` on the pickled config. -/
def TimeBasedCache.setstate (K V : Type) (max_size : Nat) (max_age : Int) :
    TimeBasedCache K V :=
  TimeBasedCache.init K V max_size max_age false

/-- `AgeBasedCache` is a `TimeBasedCache` that only overrides `Get`. -/
abbrev AgeBasedCache (K V : Type) := TimeBasedCache K V

/-- `AgeBasedCache.Get(key)`: like `TimeBasedCache.Get` but without the
timestamp refresh — `FastStore.Get`, the age check, then `return stored[1]`. -/
def AgeBasedCache.Get {K V : Type} [DecidableEq K] (key : K) (now : Int)
    (tc : AgeBasedCache K V) : Except (CacheErr K) V × AgeBasedCache K V :=
  match FastStore.Get key tc.store with
  | (Except.error e, s') => (Except.error e, { tc with store := s' })
  | (Except.ok (ts, v), s') =>
    if ts + tc.max_age < now then
      (Except.error CacheErr.expired, { tc with store := s' })
    else
      (Except.ok v, { tc with store := s' })

/-- The spec's no-orphans invariant: the key set of the recency list `_age`
equals the key set of the entry mapping `_hash`. -/
def KeysEq {K V : Type} [DecidableEq K] (s : FastStore K V) : Prop :=
  (∀ k ∈ s.age, k ∈ s.hash.map Prod.fst) ∧ (∀ k ∈ s.hash.map Prod.fst, k ∈ s.age)

/-- The one-sided inclusion that the code does maintain everywhere: every key
of the entry mapping occurs in the recency list. -/
def HashSub {K V : Type} [DecidableEq K] (s : FastStore K V) : Prop :=
  ∀ k ∈ s.hash.map Prod.fst, k ∈ s.age

/-- Well-formedness of a store: no duplicate keys in `_age` or `_hash`, and
the no-orphans key-set equality. -/
def StoreInv {K V : Type} [DecidableEq K] (s : FastStore K V) : Prop :=
  s.age.Nodup ∧ (s.hash.map Prod.fst).Nodup ∧ KeysEq s

instance {K V : Type} [DecidableEq K] (s : FastStore K V) : Decidable (KeysEq s) := by
  unfold KeysEq
  infer_instance

instance {K V : Type} [DecidableEq K] (s : FastStore K V) : Decidable (HashSub s) := by
  unfold HashSub
  infer_instance

instance {K V : Type} [DecidableEq K] (s : FastStore K V) : Decidable (StoreInv s) := by
  unfold StoreInv
  infer_instance

/-! ### Lemmas about the association-list and recency-list primitives -/

theorem lerase_of_not_mem {K : Type} [DecidableEq K] {k : K} {l : List K}
    (h : k ∉ l) : lerase k l = l := by
  induction l with
  | nil => rfl
  | cons a t ih =>
    simp only [List.mem_cons, not_or] at h
    simp [lerase, Ne.symm h.1, ih h.2]

theorem mem_lerase_of_nodup {K : Type} [DecidableEq K] {k x : K} {l : List K}
    (h : l.Nodup) : x ∈ lerase k l ↔ x ∈ l ∧ x ≠ k := by
  induction l with
  | nil => simp [lerase]
  | cons a t ih =>
    rcases List.nodup_cons.mp h with ⟨ha, ht⟩
    by_cases hak : a = k
    · subst hak
      simp only [lerase, if_pos rfl]
      constructor
      · intro hx
        exact ⟨List.mem_cons_of_mem _ hx, fun hxa => ha (hxa ▸ hx)⟩
      · rintro ⟨hx, hne⟩
        rcases List.mem_cons.mp hx with rfl | hx
        · exact absurd rfl hne
        · exact hx
    · simp only [lerase, if_neg hak, List.mem_cons, ih ht]
      constructor
      · rintro (rfl | ⟨hx, hne⟩)
        · exact ⟨Or.inl rfl, fun hk => hak hk⟩
        · exact ⟨Or.inr hx, hne⟩
      · rintro ⟨rfl | hx, hne⟩
        · exact Or.inl rfl
        · exact Or.inr ⟨hx, hne⟩

theorem lerase_sublist {K : Type} [DecidableEq K] (k : K) (l : List K) :
    (lerase k l).Sublist l := by
  induction l with
  | nil => simp [lerase]
  | cons a t ih =>
    by_cases hak : a = k
    · simp [lerase, hak]
    · simpa [lerase, hak] using ih.cons₂ a

theorem nodup_lerase {K : Type} [DecidableEq K] {k : K} {l : List K}
    (h : l.Nodup) : (lerase k l).Nodup :=
  (lerase_sublist k l).nodup h

theorem length_lerase_of_mem {K : Type} [DecidableEq K] {k : K} {l : List K}
    (h : k ∈ l) : (lerase k l).length + 1 = l.length := by
  induction l with
  | nil => cases h
  | cons a t ih =>
    by_cases hak : a = k
    · simp [lerase, hak]
    · rcases List.mem_cons.mp h with rfl | hk
      · exact absurd rfl hak
      · simp only [lerase, if_neg hak, List.length_cons]
        have := ih hk
        omega

theorem hremove_map_fst {K V : Type} [DecidableEq K] (k : K) (l : List (K × V)) :
    (hremove k l).map Prod.fst = lerase k (l.map Prod.fst) := by
  induction l with
  | nil => rfl
  | cons p t ih =>
    by_cases hpk : p.1 = k
    · simp [hremove, lerase, hpk]
    · simp [hremove, lerase, hpk, ih]

theorem hlookup_eq_none {K V : Type} [DecidableEq K] {k : K} {l : List (K × V)} :
    hlookup k l = none ↔ k ∉ l.map Prod.fst := by
  induction l with
  | nil => simp [hlookup]
  | cons p t ih =>
    by_cases hpk : p.1 = k
    · simp [hlookup, hpk]
    · simp [hlookup, hpk, ih, Ne.symm hpk]

theorem hlookup_isSome {K V : Type} [DecidableEq K] {k : K} {l : List (K × V)} :
    (∃ v, hlookup k l = some v) ↔ k ∈ l.map Prod.fst := by
  rw [← not_iff_not, ← hlookup_eq_none]
  cases h : hlookup k l <;> simp [h]

theorem hlookup_hremove_ne {K V : Type} [DecidableEq K] {k k' : K} (l : List (K × V))
    (h : k' ≠ k) : hlookup k' (hremove k l) = hlookup k' l := by
  induction l with
  | nil => rfl
  | cons p t ih =>
    by_cases hpk : p.1 = k
    · have hne : p.1 ≠ k' := fun hc => h (hc.symm.trans hpk)
      have hkk : k ≠ k' := Ne.symm h
      simp [hremove, hlookup, hpk, hne, hkk]
    · simp [hremove, hlookup, hpk, ih]

theorem hlookup_hremove_self {K V : Type} [DecidableEq K] {k : K} {l : List (K × V)}
    (h : (l.map Prod.fst).Nodup) : hlookup k (hremove k l) = none := by
  induction l with
  | nil => rfl
  | cons p t ih =>
    simp only [List.map_cons, List.nodup_cons] at h
    by_cases hpk : p.1 = k
    · simp only [hremove, if_pos hpk]
      exact hlookup_eq_none.mpr (hpk ▸ h.1)
    · simp [hremove, hlookup, hpk, ih h.2]

theorem hlookup_hremove_none {K V : Type} [DecidableEq K] {k x : K} {l : List (K × V)}
    (h : hlookup k l = none) : hlookup k (hremove x l) = none := by
  induction l with
  | nil => rfl
  | cons p t ih =>
    by_cases hpk : p.1 = k
    · simp [hlookup, hpk] at h
    · simp only [hlookup, if_neg hpk] at h
      by_cases hpx : p.1 = x
      · simp [hremove, hpx, h]
      · simp [hremove, hlookup, hpx, hpk, ih h]

theorem hlookup_hinsert_self {K V : Type} [DecidableEq K] (k : K) (v : V)
    (l : List (K × V)) : hlookup k (hinsert k v l) = some v := by
  induction l with
  | nil => simp [hinsert, hlookup]
  | cons p t ih =>
    by_cases hpk : p.1 = k
    · simp [hinsert, hlookup, hpk]
    · simp [hinsert, hlookup, hpk, ih]

theorem hlookup_hinsert_ne {K V : Type} [DecidableEq K] {k k' : K} (v : V)
    (l : List (K × V)) (h : k' ≠ k) : hlookup k' (hinsert k v l) = hlookup k' l := by
  have hne : k ≠ k' := Ne.symm h
  induction l with
  | nil => simp [hinsert, hlookup, hne]
  | cons p t ih =>
    by_cases hpk : p.1 = k
    · have hne2 : p.1 ≠ k' := fun hc => h (hc.symm.trans hpk)
      simp [hinsert, hlookup, hpk, hne, hne2]
    · simp [hinsert, hlookup, hpk, ih]

theorem hinsert_map_fst_mem {K V : Type} [DecidableEq K] {k : K} (v : V)
    {l : List (K × V)} (h : k ∈ l.map Prod.fst) :
    (hinsert k v l).map Prod.fst = l.map Prod.fst := by
  induction l with
  | nil => simp at h
  | cons p t ih =>
    by_cases hpk : p.1 = k
    · simp [hinsert, hpk]
    · simp only [List.map_cons, List.mem_cons] at h
      rcases h with h | h
    
      · exact absurd h.symm hpk
      · simp [hinsert, hpk, ih h]

theorem hinsert_map_fst_not_mem {K V : Type} [DecidableEq K] {k : K} (v : V)
    {l : List (K × V)} (h : k ∉ l.map Prod.fst) :
    (hinsert k v l).map Prod.fst = l.map Prod.fst ++ [k] := by
  induction l with
  | nil => simp [hinsert]
  | cons p t ih =>
    simp only [List.map_cons, List.mem_cons, not_or] at h
    have hpk : p.1 ≠ k := fun hc => h.1 hc.symm
    simp [hinsert, hpk, ih h.2]

theorem filterMap_congr_mem {A B : Type} {f g : A → Option B} :
    ∀ {l : List A}, (∀ a ∈ l, f a = g a) → l.filterMap f = l.filterMap g
  | [], _ => rfl
  | a :: t, h => by
    have ht := filterMap_congr_mem (fun x hx => h x (List.mem_cons_of_mem _ hx))
    simp only [List.filterMap_cons, h a (List.mem_cons_self a t), ht]

theorem length_eq_of_nodup_mem {A : Type} {l1 l2 : List A}
    (h1 : l1.Nodup) (h2 : l2.Nodup) (h : ∀ x, x ∈ l1 ↔ x ∈ l2) :
    l1.length = l2.length := by
  have hs : l1.Subperm l2 := h1.subperm (fun x hx => (h x).mp hx)
  have hs' : l2.Subperm l1 := h2.subperm (fun x hx => (h x).mpr hx)
  exact Nat.le_antisymm hs.length_le hs'.length_le

/-! ### Lemmas about `ExpireObject` and the capacity-enforcement loop -/

theorem ExpireObject_age {K V : Type} [DecidableEq K] (key : K) (s : FastStore K V) :
    (FastStore.ExpireObject key s).2.age = s.age := rfl

theorem ExpireObject_limit {K V : Type} [DecidableEq K] (key : K) (s : FastStore K V) :
    (FastStore.ExpireObject key s).2.limit = s.limit := rfl

theorem ExpireObject_kill_cb {K V : Type} [DecidableEq K] (key : K) (s : FastStore K V) :
    (FastStore.ExpireObject key s).2.kill_cb = s.kill_cb := rfl

theorem ExpireObject_hash {K V : Type} [DecidableEq K] (key : K) (s : FastStore K V) :
    (FastStore.ExpireObject key s).2.hash = hremove key s.hash := rfl

theorem ExpireObject_killed_some {K V : Type} [DecidableEq K] {key : K} {s : FastStore K V}
    {v : V} (hv : hlookup key s.hash = some v) :
    (FastStore.ExpireObject key s).2.killed =
      if s.kill_cb then s.killed ++ [v] else s.killed := by
  simp [FastStore.ExpireObject, hv]

theorem ExpireObject_killed_none {K V : Type} [DecidableEq K] {key : K} {s : FastStore K V}
    (hv : hlookup key s.hash = none) :
    (FastStore.ExpireObject key s).2.killed = s.killed := by
  simp [FastStore.ExpireObject, hv]

/-- Invariant step: popping the front `x` of `_age` and expiring it preserves
the store invariant. -/
theorem StoreInv_expire_step {K V : Type} [DecidableEq K] {s : FastStore K V} {x : K}
    {rest : List K} (hage : s.age = x :: rest) (hInv : StoreInv s) :
    StoreInv (FastStore.ExpireObject x { s with age := rest }).2 := by
  obtain ⟨hnd, hknd, hkeq⟩ := hInv
  rw [hage] at hnd
  rcases List.nodup_cons.mp hnd with ⟨hxr, hndr⟩
  refine ⟨hndr, ?_, ?_, ?_⟩
  · show ((hremove x s.hash).map Prod.fst).Nodup
    rw [hremove_map_fst]
    exact nodup_lerase hknd
  · intro k hk
    have hkage : k ∈ s.age := by
      rw [hage]
      exact List.mem_cons_of_mem _ hk
    show k ∈ (hremove x s.hash).map Prod.fst
    rw [hremove_map_fst, mem_lerase_of_nodup hknd]
    exact ⟨hkeq.1 k hkage, fun hkx => hxr (hkx ▸ hk)⟩
  · intro k hk
    have hk' : k ∈ (hremove x s.hash).map Prod.fst := hk
    rw [hremove_map_fst, mem_lerase_of_nodup hknd] at hk'
    show k ∈ rest
    have hkage : k ∈ s.age := hkeq.2 k hk'.1
    rw [hage] at hkage
    rcases List.mem_cons.mp hkage with rfl | h
    · exact absurd rfl hk'.2
    · exact h

/-- Unfolding of one iteration of the `Expire` loop. -/
theorem ExpireFuel_succ_cons {K V : Type} [DecidableEq K] (n : Nat) (s : FastStore K V)
    (x : K) (rest : List K) (hage : s.age = x :: rest) (hlt : s.limit < s.age.length) :
    FastStore.ExpireFuel (n + 1) s =
      FastStore.ExpireFuel n (FastStore.ExpireObject x { s with age := rest }).2 := by
  rw [hage] at hlt
  rw [FastStore.ExpireFuel, hage, if_pos hlt]

theorem ExpireFuel_stop {K V : Type} [DecidableEq K] (n : Nat) (s : FastStore K V)
    (h : ¬ s.limit < s.age.length) : FastStore.ExpireFuel (n + 1) s = s := by
  rw [FastStore.ExpireFuel]
  simp [h]

/-- Main characterisation of the capacity-enforcement loop: from a
well-formed store it removes an oldest-first prefix of `_age`, leaves exactly
`min (length _age) _limit` keys, preserves the invariant and configuration,
and (when a callback is configured) invokes the callback once per removed
key, on that key's stored value, in removal order. -/
theorem ExpireFuel_main {K V : Type} [DecidableEq K] :
    ∀ (n : Nat) (s : FastStore K V), s.age.length ≤ n → StoreInv s →
      ∃ removed : List K,
        s.age = removed ++ (FastStore.ExpireFuel n s).age ∧
        (FastStore.ExpireFuel n s).age.length = min s.age.length s.limit ∧
        (FastStore.ExpireFuel n s).limit = s.limit ∧
        (FastStore.ExpireFuel n s).kill_cb = s.kill_cb ∧
        StoreInv (FastStore.ExpireFuel n s) ∧
        (FastStore.ExpireFuel n s).killed =
          s.killed ++
            (if s.kill_cb then removed.filterMap (fun k => hlookup k s.hash) else [])
  | 0, s, hn, hInv => by
    have hage : s.age = [] := List.length_eq_zero.mp (Nat.le_zero.mp hn)
    refine ⟨[], by simp [FastStore.ExpireFuel], ?_, rfl, rfl, hInv, by simp [FastStore.ExpireFuel]⟩
    simp [FastStore.ExpireFuel, hage]
  | n + 1, s, hn, hInv => by
    by_cases hlt : s.limit < s.age.length
    · rcases hage : s.age with _ | ⟨x, rest⟩
      · rw [hage] at hlt
        simp at hlt
      · have heq := ExpireFuel_succ_cons n s x rest hage hlt
        set t := (FastStore.ExpireObject x { s with age := rest }).2 with ht
        have hInvt : StoreInv t := StoreInv_expire_step hage hInv
        have htage : t.age = rest := rfl
        have hlen : t.age.length ≤ n := by
          rw [htage]
          rw [hage] at hn
          simp only [List.length_cons] at hn
          omega
        obtain ⟨removed', h1, h2, h3, h4, h5, h6⟩ := ExpireFuel_main n t hlen hInvt
        have hxk : x ∈ s.hash.map Prod.fst := by
          refine hInv.2.2.1 x ?_
      
          rw [hage]
          exact List.mem_cons_self x rest
        obtain ⟨v, hv⟩ := hlookup_isSome.mpr hxk
        have hxr : x ∉ rest := by
          have hnd := hInv.1
          rw [hage] at hnd
          exact (List.nodup_cons.mp hnd).1
        have hle : s.limit ≤ rest.length := by
          rw [hage] at hlt
          simp only [List.length_cons] at hlt
          omega
        rw [htage] at h1
        refine ⟨x :: removed', ?_, ?_, ?_, ?_, ?_, ?_⟩
        · rw [heq, List.cons_append, ← h1]
        · rw [heq, h2]
          show min rest.length s.limit = min (x :: rest).length s.limit
          rw [Nat.min_eq_right hle, List.length_cons,
            Nat.min_eq_right (Nat.le_trans hle (Nat.le_succ _))]
        · rw [heq, h3]
          rfl
        · rw [heq, h4]
          rfl
        · rw [heq]
          exact h5
        · rw [heq, h6]
          have htk : t.kill_cb = s.kill_cb := rfl
          have htkilled : t.killed = if s.kill_cb then s.killed ++ [v] else s.killed :=
            ExpireObject_killed_some hv
          have hcongr : removed'.filterMap (fun k => hlookup k t.hash) =
              removed'.filterMap (fun k => hlookup k s.hash) := by
            refine filterMap_congr_mem ?_
            intro a ha
            have har : a ∈ rest := by
              rw [h1]
              exact List.mem_append_left _ ha
            have hax : a ≠ x := fun hc => hxr (hc ▸ har)
            show hlookup a (hremove x s.hash) = hlookup a s.hash
            exact hlookup_hremove_ne s.hash hax
          rcases hcb : s.kill_cb with _ | _
          · rw [htkilled, hcb, if_neg (by simp), htk, hcb, if_neg (by simp)]
            simp
          · rw [htkilled, hcb, if_pos rfl, htk, hcb, if_pos rfl, if_pos rfl, hcongr]
            simp [List.filterMap_cons, hv]
    · rw [ExpireFuel_stop n s hlt]
      refine ⟨[], by simp, ?_, rfl, rfl, hInv, by simp⟩
      have hle : s.age.length ≤ s.limit := Nat.le_of_not_lt hlt
      rw [Nat.min_eq_left hle]

/-- `Expire` specialisation of `ExpireFuel_main`. -/
theorem Expire_main {K V : Type} [DecidableEq K] (s : FastStore K V) (hInv : StoreInv s) :
    ∃ removed : List K,
      s.age = removed ++ (FastStore.Expire s).age ∧
      (FastStore.Expire s).age.length = min s.age.length s.limit ∧
      (FastStore.Expire s).limit = s.limit ∧
      (FastStore.Expire s).kill_cb = s.kill_cb ∧
      StoreInv (FastStore.Expire s) ∧
      (FastStore.Expire s).killed =
        s.killed ++
          (if s.kill_cb then removed.filterMap (fun k => hlookup k s.hash) else []) :=
  ExpireFuel_main s.age.length s (Nat.le_refl _) hInv

/-! ### Invariant preservation through the public operations -/

theorem StoreInv_init (K V : Type) [DecidableEq K] (m : Nat) (cb : Bool) :
    StoreInv (FastStore.init K V m cb) := by
  refine ⟨List.nodup_nil, List.nodup_nil, ?_, ?_⟩ <;> intro k hk <;>
    simp [FastStore.init] at hk

theorem StoreInv_put_pre {K V : Type} [DecidableEq K] (key : K) (obj : V)
    {s : FastStore K V} (hInv : StoreInv s) :
    StoreInv { s with age := lerase key s.age ++ [key], hash := hinsert key obj s.hash } := by
  obtain ⟨hnd, hknd, hkeq⟩ := hInv
  by_cases hk : key ∈ s.hash.map Prod.fst
  · have hkeys : (hinsert key obj s.hash).map Prod.fst = s.hash.map Prod.fst :=
      hinsert_map_fst_mem obj hk
    refine ⟨?_, ?_, ?_, ?_⟩
    · show (lerase key s.age ++ [key]).Nodup
      refine List.Nodup.append (nodup_lerase hnd) (List.nodup_singleton key) ?_
      intro a ha hb
      rw [List.mem_singleton] at hb
      subst hb
      exact ((mem_lerase_of_nodup hnd).mp ha).2 rfl
    · show ((hinsert key obj s.hash).map Prod.fst).Nodup
      rw [hkeys]
      exact hknd
    · intro k hkm
      have hkm' : k ∈ lerase key s.age ++ [key] := hkm
      show k ∈ (hinsert key obj s.hash).map Prod.fst
      rw [hkeys]
      rcases List.mem_append.mp hkm' with h | h
      · exact hkeq.1 k ((mem_lerase_of_nodup hnd).mp h).1
      · rw [List.mem_singleton] at h
        subst h
        exact hk
    · intro k hkm
      have hkm' : k ∈ s.hash.map Prod.fst := by
        have hh : k ∈ (hinsert key obj s.hash).map Prod.fst := hkm
        rw [hkeys] at hh
        exact hh
      show k ∈ lerase key s.age ++ [key]
      by_cases hkk : k = key
      · subst hkk
        exact List.mem_append_right _ (List.mem_singleton_self _)
      · refine List.mem_append_left _ ?_
        rw [mem_lerase_of_nodup hnd]
        exact ⟨hkeq.2 k hkm', hkk⟩
  · have hkage : key ∉ s.age := fun h => hk (hkeq.1 key h)
    have hkeys : (hinsert key obj s.hash).map Prod.fst = s.hash.map Prod.fst ++ [key] :=
      hinsert_map_fst_not_mem obj hk
    have hler : lerase key s.age = s.age := lerase_of_not_mem hkage
    refine ⟨?_, ?_, ?_, ?_⟩
    · show (lerase key s.age ++ [key]).Nodup
      rw [hler]
      refine List.Nodup.append hnd (List.nodup_singleton key) ?_
      intro a ha hb
      rw [List.mem_singleton] at hb
      subst hb
      exact hkage ha
    · show ((hinsert key obj s.hash).map Prod.fst).Nodup
      rw [hkeys]
      refine List.Nodup.append hknd (List.nodup_singleton key) ?_
      intro a ha hb
      rw [List.mem_singleton] at hb
      subst hb
      exact hk ha
    · intro k hkm
      have hkm' : k ∈ lerase key s.age ++ [key] := hkm
      show k ∈ (hinsert key obj s.hash).map Prod.fst
      rw [hkeys, hler] at *
      rcases List.mem_append.mp hkm' with h | h
      · exact List.mem_append_left _ (hkeq.1 k h)
      · exact List.mem_append_right _ h
    · intro k hkm
      have hkm' : k ∈ s.hash.map Prod.fst ++ [key] := by
        have hh : k ∈ (hinsert key obj s.hash).map Prod.fst := hkm
        rw [hkeys] at hh
        exact hh
      show k ∈ lerase key s.age ++ [key]
      rw [hler]
      rcases List.mem_append.mp hkm' with h | h
      · exact List.mem_append_left _ (hkeq.2 k h)
      · exact List.mem_append_right _ h

theorem StoreInv_length_hash {K V : Type} [DecidableEq K] {s : FastStore K V}
    (hInv : StoreInv s) : s.hash.length = s.age.length := by
  have h := length_eq_of_nodup_mem hInv.2.1 hInv.1
    (fun x => ⟨fun hx => hInv.2.2.2 x hx, fun hx => hInv.2.2.1 x hx⟩)
  rw [List.length_map] at h
  exact h

/-- `Put` returns the key, preserves the invariant and the configuration, and
leaves at most `_limit` entries in the mapping. -/
theorem Put_main {K V : Type} [DecidableEq K] (key : K) (obj : V) (s : FastStore K V)
    (hInv : StoreInv s) :
    (FastStore.Put key obj s).1 = key ∧
    StoreInv (FastStore.Put key obj s).2 ∧
    (FastStore.Put key obj s).2.limit = s.limit ∧
    (FastStore.Put key obj s).2.hash.length ≤ s.limit := by
  have hpre := StoreInv_put_pre key obj hInv
  obtain ⟨removed, h1, h2, h3, h4, h5, h6⟩ :=
    Expire_main { s with age := lerase key s.age ++ [key], hash := hinsert key obj s.hash } hpre
  have hstate : (FastStore.Put key obj s).2 =
      FastStore.Expire { s with age := lerase key s.age ++ [key], hash := hinsert key obj s.hash } :=
    rfl
  refine ⟨rfl, ?_, ?_, ?_⟩
  · rw [hstate]
    exact h5
  · rw [hstate, h3]
  · rw [hstate, StoreInv_length_hash h5, h2]
    exact Nat.min_le_right _ _

theorem Get_not_mem {K V : Type} [DecidableEq K] {key : K} {s : FastStore K V}
    (h : key ∉ s.age) :
    FastStore.Get key s = (Except.error (CacheErr.notFound key), s) := by
  unfold FastStore.Get
  rw [if_neg h]

theorem Get_mem_some {K V : Type} [DecidableEq K] {key : K} {s : FastStore K V} {v : V}
    (hmem : key ∈ s.age) (hv : hlookup key s.hash = some v) :
    FastStore.Get key s =
      (Except.ok v, { s with age := lerase key s.age ++ [key] }) := by
  unfold FastStore.Get
  rw [if_pos hmem]
  simp only [hv]

theorem Get_mem_none {K V : Type} [DecidableEq K] {key : K} {s : FastStore K V}
    (hmem : key ∈ s.age) (hv : hlookup key s.hash = none) :
    FastStore.Get key s =
      (Except.error (CacheErr.notFound key), { s with age := lerase key s.age ++ [key] }) := by
  unfold FastStore.Get
  rw [if_pos hmem]
  simp only [hv]

/-- `Get` preserves the store invariant. -/
theorem StoreInv_Get {K V : Type} [DecidableEq K] (key : K) (s : FastStore K V)
    (hInv : StoreInv s) : StoreInv (FastStore.Get key s).2 := by
  by_cases hmem : key ∈ s.age
  · have hstate : (FastStore.Get key s).2 = { s with age := lerase key s.age ++ [key] } := by
      rcases hv : hlookup key s.hash with _ | v
      · rw [Get_mem_none hmem hv]
      · rw [Get_mem_some hmem hv]
    rw [hstate]
    obtain ⟨hnd, hknd, hkeq⟩ := hInv
    refine ⟨?_, hknd, ?_, ?_⟩
    · show (lerase key s.age ++ [key]).Nodup
      refine List.Nodup.append (nodup_lerase hnd) (List.nodup_singleton key) ?_
      intro a ha hb
      rw [List.mem_singleton] at hb
      subst hb
      exact ((mem_lerase_of_nodup hnd).mp ha).2 rfl
    · intro k hkm
      have hkm' : k ∈ lerase key s.age ++ [key] := hkm
      show k ∈ s.hash.map Prod.fst
      rcases List.mem_append.mp hkm' with h | h
      · exact hkeq.1 k ((mem_lerase_of_nodup hnd).mp h).1
      · rw [List.mem_singleton] at h
        subst h
        exact hkeq.1 _ hmem
    · intro k hkm
      show k ∈ lerase key s.age ++ [key]
      by_cases hkk : k = key
      · subst hkk
        exact List.mem_append_right _ (List.mem_singleton_self _)
      · refine List.mem_append_left _ ?_
        rw [mem_lerase_of_nodup hnd]
        exact ⟨hkeq.2 k hkm, hkk⟩
  · rw [Get_not_mem hmem]
    exact hInv

/-! ### Flush, ExpireRegEx and the housekeeper sweep -/

theorem ExpireObject_killed_nocb {K V : Type} [DecidableEq K] (key : K)
    {s : FastStore K V} (h : s.kill_cb = false) :
    (FastStore.ExpireObject key s).2.killed = s.killed := by
  rcases hv : hlookup key s.hash with _ | v
  · exact ExpireObject_killed_none hv
  · rw [ExpireObject_killed_some hv, h]
    simp

theorem FlushFuel_age {K V : Type} [DecidableEq K] :
    ∀ (n : Nat) (s : FastStore K V), s.age.length ≤ n → (FastStore.FlushFuel n s).age = []
  | 0, s, hn => by
    have hage : s.age = [] := List.length_eq_zero.mp (Nat.le_zero.mp hn)
    show s.age = []
    exact hage
  | n + 1, s, hn => by
    rcases hage : s.age with _ | ⟨x, rest⟩
    · rw [FastStore.FlushFuel, hage]
      exact hage
    · rw [FastStore.FlushFuel, hage]
      apply FlushFuel_age n
      show rest.length ≤ n
      rw [hage] at hn
      simp only [List.length_cons] at hn
      omega

theorem FlushFuel_killed_nocb {K V : Type} [DecidableEq K] :
    ∀ (n : Nat) (s : FastStore K V), s.kill_cb = false →
      (FastStore.FlushFuel n s).killed = s.killed
  | 0, s, h => rfl
  | n + 1, s, h => by
    rcases hage : s.age with _ | ⟨x, rest⟩
    · rw [FastStore.FlushFuel, hage]
    · rw [FastStore.FlushFuel, hage]
      have hcb : ((FastStore.ExpireObject x { s with age := rest }).2).kill_cb = false := h
      rw [FlushFuel_killed_nocb n _ hcb]
      exact ExpireObject_killed_nocb x h

theorem Flush_age {K V : Type} [DecidableEq K] (s : FastStore K V) :
    (FastStore.Flush s).age = [] :=
  FlushFuel_age s.age.length s (Nat.le_refl _)

theorem Flush_hash {K V : Type} [DecidableEq K] (s : FastStore K V) :
    (FastStore.Flush s).hash = [] := rfl

theorem Flush_killed_nocb {K V : Type} [DecidableEq K] {s : FastStore K V}
    (h : s.kill_cb = false) : (FastStore.Flush s).killed = s.killed :=
  FlushFuel_killed_nocb s.age.length s h

theorem HashSub_ExpireObject {K V : Type} [DecidableEq K] (key : K) {s : FastStore K V}
    (h : HashSub s) : HashSub (FastStore.ExpireObject key s).2 := by
  intro k hk
  have hk' : k ∈ (hremove key s.hash).map Prod.fst := hk
  rw [hremove_map_fst] at hk'
  show k ∈ s.age
  exact h k ((lerase_sublist key (s.hash.map Prod.fst)).subset hk')

theorem HashSub_foldl_expire {K V : Type} [DecidableEq K] (pmatch : K → Bool) :
    ∀ (keys : List K) (s : FastStore K V), HashSub s →
      HashSub (keys.foldl
        (fun t key => if pmatch key then (FastStore.ExpireObject key t).2 else t) s)
  | [], s, h => h
  | k :: rest, s, h => by
    rw [List.foldl_cons]
    by_cases hp : pmatch k
    · rw [if_pos hp]
      exact HashSub_foldl_expire pmatch rest _ (HashSub_ExpireObject k h)
    · rw [if_neg hp]
      exact HashSub_foldl_expire pmatch rest s h

theorem HashSub_ExpireRegEx {K V : Type} [DecidableEq K] (pmatch : K → Bool)
    (s : FastStore K V) (h : HashSub s) : HashSub (FastStore.ExpireRegEx pmatch s) :=
  HashSub_foldl_expire pmatch (s.hash.map Prod.fst) s h

theorem HashSub_HouseKeeperLoop {K V : Type} [DecidableEq K] (ma now : Int) :
    ∀ (keys : List K) (s : FastStore K (Int × V)), HashSub s →
      HashSub (HouseKeeperLoop ma now keys s)
  | [], s, h => h
  | key :: rest, s, h => by
    rw [HouseKeeperLoop]
    rcases hv : hlookup key s.hash with _ | ⟨ts, v⟩
    · exact HashSub_HouseKeeperLoop ma now rest s h
    · show HashSub (if ts + ma < now then
          HouseKeeperLoop ma now rest (FastStore.ExpireObject key s).2
        else HouseKeeperLoop ma now rest s)
      by_cases hex : ts + ma < now
      · rw [if_pos hex]
        exact HashSub_HouseKeeperLoop ma now rest _ (HashSub_ExpireObject key h)
      · rw [if_neg hex]
        exact HashSub_HouseKeeperLoop ma now rest s h

/-- The value the housekeeper sweep would evict for key `k`: its stored
`[timestamp, value]` pair when it is over age, otherwise nothing. -/
def expiredEntry {K V : Type} [DecidableEq K] (ma now : Int)
    (h : List (K × (Int × V))) (k : K) : Option (Int × V) :=
  match hlookup k h with
  | some (ts, v) => if ts + ma < now then some (ts, v) else none
  | none => none

theorem HouseKeeperLoop_lookup_none {K V : Type} [DecidableEq K] (ma now : Int) :
    ∀ (keys : List K) (s : FastStore K (Int × V)) (k : K),
      hlookup k s.hash = none → hlookup k (HouseKeeperLoop ma now keys s).hash = none
  | [], s, k, h => h
  | key :: rest, s, k, h => by
    rw [HouseKeeperLoop]
    rcases hv : hlookup key s.hash with _ | ⟨ts, v⟩
    · exact HouseKeeperLoop_lookup_none ma now rest s k h
    · show hlookup k (if ts + ma < now then
          HouseKeeperLoop ma now rest (FastStore.ExpireObject key s).2
        else HouseKeeperLoop ma now rest s).hash = none
      by_cases hex : ts + ma < now
      · rw [if_pos hex]
        refine HouseKeeperLoop_lookup_none ma now rest _ k ?_
        show hlookup k (hremove key s.hash) = none
        exact hlookup_hremove_none h
      · rw [if_neg hex]
        exact HouseKeeperLoop_lookup_none ma now rest s k h

/-- Main characterisation of one housekeeper sweep: every over-age entry that
the sweep can see is removed from the mapping, every fresh entry is left
untouched, the callback log is extended by exactly the evicted
`[timestamp, value]` pairs in `_age` order, and `_age` itself is unchanged. -/
theorem HouseKeeperLoop_main {K V : Type} [DecidableEq K] (ma now : Int) :
    ∀ (keys : List K) (s : FastStore K (Int × V)),
      keys.Nodup → (s.hash.map Prod.fst).Nodup → s.kill_cb = true →
      (∀ k ts v, hlookup k s.hash = some (ts, v) → ts + ma < now → k ∈ keys) →
      (∀ k ts v, hlookup k s.hash = some (ts, v) →
        (ts + ma < now → hlookup k (HouseKeeperLoop ma now keys s).hash = none) ∧
        (¬ ts + ma < now →
          hlookup k (HouseKeeperLoop ma now keys s).hash = some (ts, v))) ∧
      (HouseKeeperLoop ma now keys s).killed =
        s.killed ++ keys.filterMap (expiredEntry ma now s.hash) ∧
      (HouseKeeperLoop ma now keys s).age = s.age
  | [], s, hnd, hknd, hcb, hcover => by
    refine ⟨?_, by simp [HouseKeeperLoop], rfl⟩
    intro k ts v hk
    constructor
    · intro hex
      exact absurd (hcover k ts v hk hex) (List.not_mem_nil k)
    · intro hex
      exact hk
  | key :: rest, s, hnd, hknd, hcb, hcover => by
    rcases List.nodup_cons.mp hnd with ⟨hkr, hndr⟩
    rw [HouseKeeperLoop]
    rcases hv : hlookup key s.hash with _ | ⟨ts, v⟩
    · have hcover' : ∀ k ts' v', hlookup k s.hash = some (ts', v') →
          ts' + ma < now → k ∈ rest := by
        intro k ts' v' hk hex
        rcases List.mem_cons.mp (hcover k ts' v' hk hex) with rfl | h
        · rw [hv] at hk
          cases hk
        · exact h
      obtain ⟨p1, p2, p3⟩ := HouseKeeperLoop_main ma now rest s hndr hknd hcb hcover'
      refine ⟨p1, ?_, p3⟩
      rw [p2, List.filterMap_cons]
      have hf : expiredEntry ma now s.hash key = none := by
        simp [expiredEntry, hv]
      rw [hf]
    · show (∀ k ts' v', hlookup k s.hash = some (ts', v') →
          (ts' + ma < now → hlookup k (if ts + ma < now then
              HouseKeeperLoop ma now rest (FastStore.ExpireObject key s).2
            else HouseKeeperLoop ma now rest s).hash = none) ∧
          (¬ ts' + ma < now →
            hlookup k (if ts + ma < now then
              HouseKeeperLoop ma now rest (FastStore.ExpireObject key s).2
            else HouseKeeperLoop ma now rest s).hash = some (ts', v'))) ∧
        (if ts + ma < now then
            HouseKeeperLoop ma now rest (FastStore.ExpireObject key s).2
          else HouseKeeperLoop ma now rest s).killed =
          s.killed ++ (key :: rest).filterMap (expiredEntry ma now s.hash) ∧
        (if ts + ma < now then
            HouseKeeperLoop ma now rest (FastStore.ExpireObject key s).2
          else HouseKeeperLoop ma now rest s).age = s.age
      by_cases hex : ts + ma < now
      · rw [if_pos hex]
        set t := (FastStore.ExpireObject key s).2 with htdef
        have hth : t.hash = hremove key s.hash := rfl
        have htage : t.age = s.age := rfl
        have htcb : t.kill_cb = s.kill_cb := rfl
        have htknd : (t.hash.map Prod.fst).Nodup := by
          rw [hth, hremove_map_fst]
          exact nodup_lerase hknd
        have hselfnone : hlookup key t.hash = none := by
          rw [hth]
          exact hlookup_hremove_self hknd
        have hlook : ∀ k, k ≠ key → hlookup k t.hash = hlookup k s.hash := by
          intro k hk
          rw [hth]
          exact hlookup_hremove_ne s.hash hk
        have hcover' : ∀ k ts' v', hlookup k t.hash = some (ts', v') →
            ts' + ma < now → k ∈ rest := by
          intro k ts' v' hk hex'
          by_cases hkk : k = key
          · subst hkk
            rw [hselfnone] at hk
            cases hk
          · rw [hlook k hkk] at hk
            rcases List.mem_cons.mp (hcover k ts' v' hk hex') with rfl | h
            · exact absurd rfl hkk
            · exact h
        obtain ⟨p1, p2, p3⟩ :=
          HouseKeeperLoop_main ma now rest t hndr htknd (htcb.trans hcb) hcover'
        refine ⟨?_, ?_, p3.trans htage⟩
        · intro k ts' v' hk
          by_cases hkk : k = key
          · subst hkk
            rw [hv] at hk
            injection hk with hk2
            injection hk2 with hts hv2
            subst hts
            subst hv2
            constructor
            · intro _
              exact HouseKeeperLoop_lookup_none ma now rest t k hselfnone
            · intro hex'
              exact absurd hex hex'
          · have hk' : hlookup k t.hash = some (ts', v') := by
              rw [hlook k hkk]
              exact hk
            exact p1 k ts' v' hk'
        · rw [p2]
          have htkilled : t.killed = s.killed ++ [(ts, v)] := by
            rw [htdef, ExpireObject_killed_some hv, hcb]
            simp
          have hcongr : rest.filterMap (expiredEntry ma now t.hash) =
              rest.filterMap (expiredEntry ma now s.hash) := by
            refine filterMap_congr_mem ?_
            intro a ha
            have hak : a ≠ key := fun hc => hkr (hc ▸ ha)
            unfold expiredEntry
            rw [hlook a hak]
          rw [htkilled, hcongr, List.filterMap_cons]
          have hf : expiredEntry ma now s.hash key = some (ts, v) := by
            simp [expiredEntry, hv, hex]
          rw [hf]
          simp
      · rw [if_neg hex]
        have hcover' : ∀ k ts' v', hlookup k s.hash = some (ts', v') →
            ts' + ma < now → k ∈ rest := by
          intro k ts' v' hk hex'
          rcases List.mem_cons.mp (hcover k ts' v' hk hex') with rfl | h
          · rw [hv] at hk
            injection hk with hk2
            injection hk2 with hts hv2
            subst hts
            exact absurd hex' hex
          · exact h
        obtain ⟨p1, p2, p3⟩ := HouseKeeperLoop_main ma now rest s hndr hknd hcb hcover'
        refine ⟨p1, ?_, p3⟩
        rw [p2, List.filterMap_cons]
        have hf : expiredEntry ma now s.hash key = none := by
          simp [expiredEntry, hv, hex]
        rw [hf]

/-! ### Unfolding equations for the time-based Get -/

theorem FastGet_hash {K V : Type} [DecidableEq K] (key : K) (s : FastStore K V) :
    (FastStore.Get key s).2.hash = s.hash := by
  by_cases hmem : key ∈ s.age
  · rcases hv : hlookup key s.hash with _ | v
    · rw [Get_mem_none hmem hv]
    · rw [Get_mem_some hmem hv]
  · rw [Get_not_mem hmem]

theorem TBCGet_not_mem {K V : Type} [DecidableEq K] {key : K} (now : Int)
    {tc : TimeBasedCache K V} (hmem : key ∉ tc.store.age) :
    TimeBasedCache.Get key now tc = (Except.error (CacheErr.notFound key), tc) := by
  unfold TimeBasedCache.Get
  rw [Get_not_mem hmem]

theorem TBCGet_mem_none {K V : Type} [DecidableEq K] {key : K} (now : Int)
    {tc : TimeBasedCache K V} (hmem : key ∈ tc.store.age)
    (hv : hlookup key tc.store.hash = none) :
    TimeBasedCache.Get key now tc =
      (Except.error (CacheErr.notFound key),
        { tc with store := { tc.store with age := lerase key tc.store.age ++ [key] } }) := by
  unfold TimeBasedCache.Get
  rw [Get_mem_none hmem hv]

theorem TBCGet_mem_some {K V : Type} [DecidableEq K] {key : K} {ts : Int} {v : V}
    (now : Int) {tc : TimeBasedCache K V} (hmem : key ∈ tc.store.age)
    (hv : hlookup key tc.store.hash = some (ts, v)) :
    TimeBasedCache.Get key now tc =
      if ts + tc.max_age < now then
        (Except.error CacheErr.expired,
          { tc with store := { tc.store with age := lerase key tc.store.age ++ [key] } })
      else
        (Except.ok v,
          { tc with store := { tc.store with
              age := lerase key tc.store.age ++ [key],
              hash := hinsert key (now, v) tc.store.hash } }) := by
  unfold TimeBasedCache.Get
  rw [Get_mem_some hmem hv]

theorem AgeGet_store_hash {K V : Type} [DecidableEq K] (key : K) (now : Int)
    (tc : AgeBasedCache K V) :
    (AgeBasedCache.Get key now tc).2.store.hash = tc.store.hash := by
  unfold AgeBasedCache.Get
  rcases hg : FastStore.Get key tc.store with ⟨r, s'⟩
  have hh : s'.hash = tc.store.hash := by
    have h := FastGet_hash key tc.store
    rw [hg] at h
    exact h
  rcases r with e | ⟨ts, v⟩
  · exact hh
  · by_cases hex : ts + tc.max_age < now
    · show (if ts + tc.max_age < now then
          (Except.error CacheErr.expired, { tc with store := s' })
        else (Except.ok v, { tc with store := s' })).2.store.hash = tc.store.hash
      rw [if_pos hex]
      exact hh
    · show (if ts + tc.max_age < now then
          (Except.error CacheErr.expired, { tc with store := s' })
        else (Except.ok v, { tc with store := s' })).2.store.hash = tc.store.hash
      rw [if_neg hex]
      exact hh

/-! ### Concrete scenario stores -/

/-- Capacity-2 recency store with a callback, after `Put(a,1); Put(b,2); Put(c,3)`. -/
def lruStore1 : FastStore String Nat :=
  (FastStore.Put "c" 3 (FastStore.Put "b" 2 (FastStore.Put "a" 1
    (FastStore.init String Nat 2 true)).2).2).2

/-- Capacity-2 recency store with a callback, after
`Put(a,1); Put(b,2); Get(a); Put(c,3)`. -/
def lruStore2 : FastStore String Nat :=
  (FastStore.Put "c" 3 (FastStore.Get "a" (FastStore.Put "b" 2 (FastStore.Put "a" 1
    (FastStore.init String Nat 2 true)).2).2).2).2

/-- Store reaching the no-orphans counterexample: `Put(a,1)` into a fresh
capacity-10 store, then a direct `ExpireObject(a)`. -/
def orphanStore : FastStore String Nat :=
  (FastStore.ExpireObject "a" (FastStore.Put "a" 1
    (FastStore.init String Nat 10 false)).2).2

/-- Time-expiring store, `max_size = 10`, `max_age = 10`, after `Put(k,42)` at `t = 0`. -/
def ttlCache0 : TimeBasedCache String Nat :=
  (TimeBasedCache.Put "k" 42 0 (TimeBasedCache.init String Nat 10 10 false)).2

/-- `ttlCache0` after `Get(k)` at `t = 9`. -/
def ttlCache9 : TimeBasedCache String Nat :=
  (TimeBasedCache.Get "k" 9 ttlCache0).2

/-- `ttlCache9` after `Get(k)` at `t = 18`. -/
def ttlCache18 : TimeBasedCache String Nat :=
  (TimeBasedCache.Get "k" 18 ttlCache9).2

/-! ### Claims -/

/-- Claim C1, counterexample: the recency-ordering/no-orphans invariant fails
after the public `ExpireObject` (Remove): with a fresh capacity-10 store,
`Put(a,1)` followed by `ExpireObject(a)` leaves `a` in the recency list while
the entry mapping is empty, so the two key sets differ. -/
theorem C1_counterexample :
    orphanStore.age = ["a"] ∧ orphanStore.hash = [] ∧ ¬ KeysEq orphanStore :=
  ⟨rfl, rfl, by decide⟩

/-- Claim C1, amended: the key-set equality between the recency list and the
entry mapping is preserved by `Put`, `Get` and capacity enforcement, and
re-established by `Flush` (which empties both); but `ExpireObject` (Remove),
`ExpireRegEx` (RemoveMatching) and the background sweep remove the key only
from the entry mapping, leaving it in the recency list, so after those
operations only the inclusion "mapping keys ⊆ ordering keys" is guaranteed. -/
theorem C1_amended {K V : Type} [DecidableEq K] :
    (∀ (s : FastStore K V) (key : K) (obj : V), StoreInv s →
      StoreInv (FastStore.Put key obj s).2) ∧
    (∀ (s : FastStore K V) (key : K), StoreInv s → StoreInv (FastStore.Get key s).2) ∧
    (∀ s : FastStore K V, StoreInv s → StoreInv (FastStore.Expire s)) ∧
    (∀ s : FastStore K V, (FastStore.Flush s).age = [] ∧ (FastStore.Flush s).hash = []) ∧
    (∀ (s : FastStore K V) (key : K), HashSub s →
      HashSub (FastStore.ExpireObject key s).2) ∧
    (∀ (s : FastStore K V) (pm : K → Bool), HashSub s →
      HashSub (FastStore.ExpireRegEx pm s)) ∧
    (∀ (tc : TimeBasedCache K V) (now : Int), HashSub tc.store →
      HashSub (TimeBasedCache.HouseKeeper now tc).store) := by
  refine ⟨?_, ?_, ?_, ?_, ?_, ?_, ?_⟩
  · intro s key obj h
    exact (Put_main key obj s h).2.1
  · intro s key h
    exact StoreInv_Get key s h
  · intro s h
    obtain ⟨r, h1, h2, h3, h4, h5, h6⟩ := Expire_main s h
    exact h5
  · intro s
    exact ⟨Flush_age s, Flush_hash s⟩
  · intro s key h
    exact HashSub_ExpireObject key h
  · intro s pm h
    exact HashSub_ExpireRegEx pm s h
  · intro tc now h
    exact HashSub_HouseKeeperLoop tc.max_age now tc.store.age tc.store h

theorem C1_amended_witness :
    StoreInv (FastStore.Put "b" 2 (FastStore.init String Nat 2 false)).2 ∧
    HashSub (FastStore.ExpireObject "a" (FastStore.Put "a" 1
      (FastStore.init String Nat 10 false)).2).2 :=
  ⟨C1_amended.1 (FastStore.init String Nat 2 false) "b" 2 (by decide),
   C1_amended.2.2.2.2.1 (FastStore.Put "a" 1 (FastStore.init String Nat 10 false)).2 "a"
     (by decide)⟩

/-- Iterated `Put`: fold a list of `(key, value)` pairs into a store. -/
def PutMany {K V : Type} [DecidableEq K] (ops : List (K × V)) (s : FastStore K V) :
    FastStore K V :=
  ops.foldl (fun t kv => (FastStore.Put kv.1 kv.2 t).2) s

theorem PutMany_main {K V : Type} [DecidableEq K] :
    ∀ (ops : List (K × V)) (s : FastStore K V), StoreInv s → s.hash.length ≤ s.limit →
      StoreInv (PutMany ops s) ∧ (PutMany ops s).limit = s.limit ∧
      (PutMany ops s).hash.length ≤ s.limit
  | [], s, h, hlen => ⟨h, rfl, hlen⟩
  | kv :: rest, s, h, hlen => by
    obtain ⟨hret, hinv2, hlim2, hlen2⟩ := Put_main kv.1 kv.2 s h
    have hlen2' : (FastStore.Put kv.1 kv.2 s).2.hash.length ≤
        (FastStore.Put kv.1 kv.2 s).2.limit := by
      rw [hlim2]
      exact hlen2
    obtain ⟨q1, q2, q3⟩ := PutMany_main rest (FastStore.Put kv.1 kv.2 s).2 hinv2 hlen2'
    refine ⟨q1, ?_, ?_⟩
    · show (PutMany rest (FastStore.Put kv.1 kv.2 s).2).limit = s.limit
      rw [q2, hlim2]
    · show (PutMany rest (FastStore.Put kv.1 kv.2 s).2).hash.length ≤ s.limit
      rw [← hlim2]
      exact q3

/-- Claim C2: for every store created with `max_size > 0` and every sequence
of `Put` calls, after each `Put` the number of entries in the mapping is at
most `max_size` (stated for an arbitrary `Put` sequence from a fresh store;
every intermediate state is `PutMany` of a prefix). -/
theorem C2_capacity {K V : Type} [DecidableEq K] (max_size : Nat) (hm : 0 < max_size)
    (cb : Bool) (ops : List (K × V)) :
    (PutMany ops (FastStore.init K V max_size cb)).hash.length ≤ max_size :=
  (PutMany_main ops (FastStore.init K V max_size cb) (StoreInv_init K V max_size cb)
    (Nat.zero_le max_size)).2.2

theorem C2_capacity_witness :
    (PutMany [("a", 1), ("b", 2), ("c", 3)]
      (FastStore.init String Nat 2 true)).hash.length ≤ 2 :=
  C2_capacity 2 (by decide) true [("a", 1), ("b", 2), ("c", 3)]

/-- Claim C3: capacity enforcement repeatedly removes the front
(least-recently-touched key) of the recency ordering while over capacity,
invoking the callback on each removed entry's value; concretely with
`max_size = 2`: `Put(a,1); Put(b,2); Put(c,3)` evicts `a` (callback log
`[1]`), leaving `b`, `c`; and `Put(a,1); Put(b,2); Get(a); Put(c,3)` evicts
`b` (callback log `[2]`), leaving `a`, `c`. -/
theorem C3_lru {K V : Type} [DecidableEq K] :
    (∀ s : FastStore K V, StoreInv s → s.kill_cb = true →
      ∃ removed : List K,
        s.age = removed ++ (FastStore.Expire s).age ∧
        (FastStore.Expire s).age.length = min s.age.length s.limit ∧
        (FastStore.Expire s).killed =
          s.killed ++ removed.filterMap (fun k => hlookup k s.hash)) ∧
    (lruStore1.killed = [1] ∧ lruStore1.age = ["b", "c"] ∧
      (FastStore.Get "b" lruStore1).1 = Except.ok 2 ∧
      (FastStore.Get "c" lruStore1).1 = Except.ok 3 ∧
      (FastStore.Get "a" lruStore1).1 = Except.error (CacheErr.notFound "a")) ∧
    (lruStore2.killed = [2] ∧ lruStore2.age = ["a", "c"] ∧
      FastStore.contains "a" lruStore2 = true ∧
      FastStore.contains "c" lruStore2 = true ∧
      FastStore.contains "b" lruStore2 = false) := by
  refine ⟨?_, ⟨rfl, rfl, rfl, rfl, rfl⟩, ⟨rfl, rfl, rfl, rfl, rfl⟩⟩
  intro s h hcb
  obtain ⟨r, h1, h2, h3, h4, h5, h6⟩ := Expire_main s h
  refine ⟨r, h1, h2, ?_⟩
  rw [h6, hcb]
  simp

theorem C3_lru_witness :
    ∃ removed : List String,
      lruStore1.age = removed ++ (FastStore.Expire lruStore1).age ∧
      (FastStore.Expire lruStore1).age.length = min lruStore1.age.length lruStore1.limit ∧
      (FastStore.Expire lruStore1).killed =
        lruStore1.killed ++ removed.filterMap (fun k => hlookup k lruStore1.hash) :=
  C3_lru.1 lruStore1 (by decide) (by decide)

/-- Claim C4: in the time-expiring store, `Get(key)` at time `now` fails
`NotFound` when the key is absent; fails `Expired` when
`now - last_touch_timestamp > max_age`; otherwise returns the stored value
after refreshing the timestamp to `now`, in addition to the recency touch.
With `max_age = 10`: `Put(k,42)` at `t=0`, `Get` at `t=9` and `t=18` succeed,
`Get` at `t=29` fails `Expired`. -/
theorem C4_sliding_get {K V : Type} [DecidableEq K]
    (key : K) (now : Int) (tc : TimeBasedCache K V) :
    (hlookup key tc.store.hash = none →
      (TimeBasedCache.Get key now tc).1 = Except.error (CacheErr.notFound key)) ∧
    (∀ ts v, key ∈ tc.store.age → hlookup key tc.store.hash = some (ts, v) →
      (tc.max_age < now - ts →
        (TimeBasedCache.Get key now tc).1 = Except.error CacheErr.expired) ∧
      (now - ts ≤ tc.max_age →
        (TimeBasedCache.Get key now tc).1 = Except.ok v ∧
        hlookup key (TimeBasedCache.Get key now tc).2.store.hash = some (now, v) ∧
        (TimeBasedCache.Get key now tc).2.store.age =
          lerase key tc.store.age ++ [key])) ∧
    ((TimeBasedCache.Get "k" 9 ttlCache0).1 = Except.ok 42 ∧
      (TimeBasedCache.Get "k" 18 ttlCache9).1 = Except.ok 42 ∧
      (TimeBasedCache.Get "k" 29 ttlCache18).1 = Except.error CacheErr.expired) := by
  refine ⟨?_, ?_, rfl, rfl, rfl⟩
  · intro hnone
    by_cases hmem : key ∈ tc.store.age
    · rw [TBCGet_mem_none now hmem hnone]
    · rw [TBCGet_not_mem now hmem]
  · intro ts v hmem hv
    rw [TBCGet_mem_some now hmem hv]
    constructor
    · intro hexp
      rw [if_pos (by omega)]
    · intro hfresh
      rw [if_neg (by omega)]
      exact ⟨rfl, hlookup_hinsert_self key (now, v) tc.store.hash, rfl⟩

theorem C4_sliding_get_witness :
    (TimeBasedCache.Get "missing" 9 ttlCache0).1 =
      Except.error (CacheErr.notFound "missing") ∧
    (TimeBasedCache.Get "k" 29 ttlCache18).1 = Except.error CacheErr.expired ∧
    ((TimeBasedCache.Get "k" 9 ttlCache0).1 = Except.ok 42 ∧
      hlookup "k" (TimeBasedCache.Get "k" 9 ttlCache0).2.store.hash = some (9, 42) ∧
      (TimeBasedCache.Get "k" 9 ttlCache0).2.store.age =
        lerase "k" ttlCache0.store.age ++ ["k"]) := by
  refine ⟨?_, ?_, ?_⟩
  · exact (C4_sliding_get "missing" 9 ttlCache0).1 (by decide)
  · exact ((C4_sliding_get "k" 29 ttlCache18).2.1 18 42 (by decide) (by decide)).1 (by decide)
  · exact ((C4_sliding_get "k" 9 ttlCache0).2.1 0 42 (by decide) (by decide)).2 (by decide)

/-- Time-expiring store with a callback, `max_size = 5`, `max_age = 10`,
holding `old ↦ 1` touched at `t = 0` and `new ↦ 2` touched at `t = 20`. -/
def sweepCache : TimeBasedCache String Nat :=
  (TimeBasedCache.Put "new" 2 20 (TimeBasedCache.Put "old" 1 0
    (TimeBasedCache.init String Nat 5 10 true)).2).2

/-- Claim C5: one housekeeper sweep at time `now` removes from the mapping
every entry with `now - last_touch_timestamp > max_age`, invoking the
eviction callback (via the `Remove`/`ExpireObject` path) once per evicted
entry on its stored `[timestamp, value]` pair, in `_age` order; leaves every
entry with `now - last_touch_timestamp ≤ max_age` present and unchanged; and
never touches the recency list. -/
theorem C5_sweep {K V : Type} [DecidableEq K] (now : Int) (tc : TimeBasedCache K V)
    (hnd : tc.store.age.Nodup) (hknd : (tc.store.hash.map Prod.fst).Nodup)
    (hsub : HashSub tc.store) (hcb : tc.store.kill_cb = true) :
    (∀ k ts v, hlookup k tc.store.hash = some (ts, v) →
      (tc.max_age < now - ts →
        hlookup k (TimeBasedCache.HouseKeeper now tc).store.hash = none) ∧
      (now - ts ≤ tc.max_age →
        hlookup k (TimeBasedCache.HouseKeeper now tc).store.hash = some (ts, v))) ∧
    (TimeBasedCache.HouseKeeper now tc).store.killed =
      tc.store.killed ++
        tc.store.age.filterMap (expiredEntry tc.max_age now tc.store.hash) ∧
    (TimeBasedCache.HouseKeeper now tc).store.age = tc.store.age := by
  have hcover : ∀ k ts v, hlookup k tc.store.hash = some (ts, v) →
      ts + tc.max_age < now → k ∈ tc.store.age := by
    intro k ts v hk _
    exact hsub k (hlookup_isSome.mp ⟨(ts, v), hk⟩)
  obtain ⟨p1, p2, p3⟩ :=
    HouseKeeperLoop_main tc.max_age now tc.store.age tc.store hnd hknd hcb hcover
  refine ⟨?_, p2, p3⟩
  intro k ts v hk
  have h := p1 k ts v hk
  exact ⟨fun hexp => h.1 (by omega), fun hfresh => h.2 (by omega)⟩

theorem C5_sweep_witness :
    hlookup "old" (TimeBasedCache.HouseKeeper 25 sweepCache).store.hash = none ∧
    hlookup "new" (TimeBasedCache.HouseKeeper 25 sweepCache).store.hash = some (20, 2) ∧
    (TimeBasedCache.HouseKeeper 25 sweepCache).store.killed =
      sweepCache.store.killed ++
        sweepCache.store.age.filterMap
          (expiredEntry sweepCache.max_age 25 sweepCache.store.hash) ∧
    (TimeBasedCache.HouseKeeper 25 sweepCache).store.age = sweepCache.store.age := by
  have h := C5_sweep 25 sweepCache (by decide) (by decide) (by decide) (by decide)
  exact ⟨(h.1 "old" 0 1 (by decide)).1 (by decide),
    (h.1 "new" 20 2 (by decide)).2 (by decide), h.2.1, h.2.2⟩

/-- Claim C6, counterexample: a `Get` on a present but expired entry does not
purge it — with `max_age = 10`, `Put(k,42)` at `t=0` and `Get(k)` at `t=29`,
the read fails `Expired` yet `Contains(k)` is still true afterward. -/
theorem C6_counterexample :
    (TimeBasedCache.Get "k" 29 ttlCache0).1 = Except.error CacheErr.expired ∧
    FastStore.contains "k" (TimeBasedCache.Get "k" 29 ttlCache0).2.store = true :=
  ⟨rfl, rfl⟩

/-- Claim C6, amended: a `Get` on a present but expired entry returns the
`Expired` error without purging: the entry mapping is unchanged and the entry
is still present afterward (no lazy purge on access). -/
theorem C6_amended {K V : Type} [DecidableEq K] (key : K) (now ts : Int)
    (tc : TimeBasedCache K V) (v : V) (hmem : key ∈ tc.store.age)
    (hv : hlookup key tc.store.hash = some (ts, v)) (hexp : tc.max_age < now - ts) :
    (TimeBasedCache.Get key now tc).1 = Except.error CacheErr.expired ∧
    (TimeBasedCache.Get key now tc).2.store.hash = tc.store.hash ∧
    FastStore.contains key (TimeBasedCache.Get key now tc).2.store = true := by
  rw [TBCGet_mem_some now hmem hv, if_pos (by omega)]
  refine ⟨rfl, rfl, ?_⟩
  show (hlookup key tc.store.hash).isSome = true
  rw [hv]
  rfl

theorem C6_amended_witness :
    (TimeBasedCache.Get "k" 29 ttlCache0).1 = Except.error CacheErr.expired ∧
    (TimeBasedCache.Get "k" 29 ttlCache0).2.store.hash = ttlCache0.store.hash ∧
    FastStore.contains "k" (TimeBasedCache.Get "k" 29 ttlCache0).2.store = true :=
  C6_amended "k" 29 0 ttlCache0 42 (by decide) (by decide) (by decide)

/-- Age-only store, `max_size = 10`, `max_age = 10`, after `Put(k,7)` at `t = 0`. -/
def ageCache0 : AgeBasedCache String Nat :=
  (TimeBasedCache.Put "k" 7 0 (TimeBasedCache.init String Nat 10 10 false)).2

/-- Claim C7: in the age-only store, `Get` never rewrites the entry mapping
(so a successful read leaves `last_touch_timestamp` unchanged and repeated
reads never extend the lifetime); with `max_age = 10`, `Put(k,7)` at `t=0`,
`Get(k)` at `t=5` succeeds, and `Get(k)` at `t=11` fails `Expired` despite
the access at `t=5`. -/
theorem C7_age_only {K V : Type} [DecidableEq K] :
    (∀ (key : K) (now : Int) (tc : AgeBasedCache K V),
      (AgeBasedCache.Get key now tc).2.store.hash = tc.store.hash) ∧
    (AgeBasedCache.Get "k" 5 ageCache0).1 = Except.ok 7 ∧
    (AgeBasedCache.Get "k" 11 (AgeBasedCache.Get "k" 5 ageCache0).2).1 =
      Except.error CacheErr.expired := by
  exact ⟨fun key now tc => AgeGet_store_hash key now tc, rfl, rfl⟩

/-- Claim C8: pickling (`ExportConfig`) fails exactly when an eviction
callback is configured; without one it flushes the store (invoking no
callback), returns only the configuration (`max_size`, plus `max_age` for the
time-based store), and unpickling that configuration (`ImportConfig`) yields
an empty store with the same `max_size` and `max_age`. -/
theorem C8_serialization {K V : Type} [DecidableEq K] :
    (∀ s : FastStore K V, s.kill_cb = true → FastStore.getstate s = Except.error ()) ∧
    (∀ s : FastStore K V, s.kill_cb = false →
      FastStore.getstate s = Except.ok (s.limit, FastStore.Flush s) ∧
      (FastStore.Flush s).age = [] ∧ (FastStore.Flush s).hash = [] ∧
      (FastStore.Flush s).killed = s.killed ∧
      (FastStore.setstate K V s.limit).age = [] ∧
      (FastStore.setstate K V s.limit).hash = [] ∧
      (FastStore.setstate K V s.limit).limit = s.limit) ∧
    (∀ tc : TimeBasedCache K V, tc.store.kill_cb = true →
      TimeBasedCache.getstate tc = Except.error ()) ∧
    (∀ tc : TimeBasedCache K V, tc.store.kill_cb = false →
      TimeBasedCache.getstate tc =
        Except.ok ((tc.store.limit, tc.max_age),
          { tc with store := FastStore.Flush tc.store }) ∧
      (TimeBasedCache.setstate K V tc.store.limit tc.max_age).store.age = [] ∧
      (TimeBasedCache.setstate K V tc.store.limit tc.max_age).store.hash = [] ∧
      (TimeBasedCache.setstate K V tc.store.limit tc.max_age).store.limit =
        tc.store.limit ∧
      (TimeBasedCache.setstate K V tc.store.limit tc.max_age).max_age = tc.max_age) := by
  refine ⟨?_, ?_, ?_, ?_⟩
  · intro s h
    unfold FastStore.getstate
    rw [if_pos h]
  · intro s h
    refine ⟨?_, Flush_age s, Flush_hash s, Flush_killed_nocb h, rfl, rfl, rfl⟩
    unfold FastStore.getstate
    rw [if_neg (by simp [h])]
  · intro tc h
    unfold TimeBasedCache.getstate
    rw [if_pos h]
  · intro tc h
    refine ⟨?_, rfl, rfl, rfl, rfl⟩
    unfold TimeBasedCache.getstate
    rw [if_neg (by simp [h])]

/-- Bounded recency store with entries and no callback, for the C8 witness. -/
def plainStore : FastStore String Nat :=
  (FastStore.Put "b" 2 (FastStore.Put "a" 1 (FastStore.init String Nat 5 false)).2).2

theorem C8_serialization_witness :
    FastStore.getstate (FastStore.init String Nat 5 true) = Except.error () ∧
    (FastStore.getstate plainStore = Except.ok (5, FastStore.Flush plainStore) ∧
      (FastStore.Flush plainStore).age = [] ∧ (FastStore.Flush plainStore).hash = [] ∧
      (FastStore.Flush plainStore).killed = plainStore.killed ∧
      (FastStore.setstate String Nat 5).age = [] ∧
      (FastStore.setstate String Nat 5).hash = [] ∧
      (FastStore.setstate String Nat 5).limit = 5) ∧
    TimeBasedCache.getstate (TimeBasedCache.init String Nat 5 7 true) =
      Except.error () ∧
    (TimeBasedCache.getstate ttlCache0 =
      Except.ok ((10, 10), { ttlCache0 with store := FastStore.Flush ttlCache0.store }) ∧
      (TimeBasedCache.setstate String Nat 10 10).store.age = [] ∧
      (TimeBasedCache.setstate String Nat 10 10).store.hash = [] ∧
      (TimeBasedCache.setstate String Nat 10 10).store.limit = 10 ∧
      (TimeBasedCache.setstate String Nat 10 10).max_age = 10) :=
  ⟨C8_serialization.1 (FastStore.init String Nat 5 true) rfl,
   C8_serialization.2.1 plainStore rfl,
   C8_serialization.2.2.1 (TimeBasedCache.init String Nat 5 7 true) rfl,
   C8_serialization.2.2.2 ttlCache0 rfl⟩

/-- Claim C9, counterexample: `TimeBasedCache.Put` does not return the key —
its body has no `return` statement, so the call returns `None`. -/
theorem C9_counterexample :
    (TimeBasedCache.Put "a" 1 0 (TimeBasedCache.init String Nat 10 10 false)).1 = none ∧
    (TimeBasedCache.Put "a" 1 0 (TimeBasedCache.init String Nat 10 10 false)).1 ≠
      some "a" :=
  ⟨rfl, by decide⟩

/-- Claim C9, amended: `FastStore.Put` always succeeds and returns the key;
`TimeBasedCache.Put` performs the same insertion with the value wrapped as
`[now, value]` but returns `None` rather than the key. -/
theorem C9_amended {K V : Type} [DecidableEq K] :
    (∀ (key : K) (obj : V) (s : FastStore K V), (FastStore.Put key obj s).1 = key) ∧
    (∀ (key : K) (obj : V) (now : Int) (tc : TimeBasedCache K V),
      (TimeBasedCache.Put key obj now tc).1 = none ∧
      (TimeBasedCache.Put key obj now tc).2.store =
        (FastStore.Put key (now, obj) tc.store).2) :=
  ⟨fun key obj s => rfl, fun key obj now tc => ⟨rfl, rfl⟩⟩

/-- Time-expiring store with two live entries (`a` touched at `t = 0`,
`b` touched at `t = 1`), for the C10 witness. -/
def ttl2 : TimeBasedCache String Nat :=
  (TimeBasedCache.Put "b" 2 1 (TimeBasedCache.Put "a" 1 0
    (TimeBasedCache.init String Nat 5 10 false)).2).2

/-- Claim C10: a `Get` that fails `Expired` still mutates the store — the
entry stays in the mapping and its key is moved to the most-recently-touched
end of the recency list, because the underlying recency touch runs before the
age check. -/
theorem C10_expired_touch {K V : Type} [DecidableEq K] (key : K) (now ts : Int)
    (tc : TimeBasedCache K V) (v : V) (hmem : key ∈ tc.store.age)
    (hv : hlookup key tc.store.hash = some (ts, v)) (hexp : tc.max_age < now - ts) :
    (TimeBasedCache.Get key now tc).1 = Except.error CacheErr.expired ∧
    (TimeBasedCache.Get key now tc).2.store.hash = tc.store.hash ∧
    (TimeBasedCache.Get key now tc).2.store.age =
      lerase key tc.store.age ++ [key] := by
  rw [TBCGet_mem_some now hmem hv, if_pos (by omega)]
  exact ⟨rfl, rfl, rfl⟩

theorem C10_expired_touch_witness :
    (TimeBasedCache.Get "a" 29 ttl2).1 = Except.error CacheErr.expired ∧
    (TimeBasedCache.Get "a" 29 ttl2).2.store.hash = ttl2.store.hash ∧
    (TimeBasedCache.Get "a" 29 ttl2).2.store.age = lerase "a" ttl2.store.age ++ ["a"] :=
  C10_expired_touch "a" 29 0 ttl2 1 (by decide) (by decide) (by decide)
